import Mathlib

/-!
Verification of the hash-cracker core: a shallow embedding of the mask
parser, the attack strategies (dictionary, brute force, hybrid), the
engine's work chunker and the worker loop, together with theorems about
their combinatorics, dedup invariants, chunk distribution, attempt
accounting and cancellation behaviour.

Strings of the Python source are modelled as `List Char` (`Word`);
Python's arbitrary-precision integers are modelled as `Nat`.
-/

/-- A Python string, modelled as its list of characters. -/
abbrev Word := List Char

/-- Association-list lookup keyed by words, modelling Python dict lookup
by string key. -/
def lookupW (k : Word) : List (Word × Word) → Option Word
  | [] => none
  | (k', v) :: rest => if k = k' then some v else lookupW k rest

/-! ## Mask parser (src/core/masks/parser.py) -/

/-- `MaskParser.CHARACTER_SETS`: the per-placeholder alphabets, keyed by the
two-character placeholder string. -/
def parserCharacterSets : List (Word × Word) :=
  [ ("?l".toList, "abcdefghijklmnopqrstuvwxyz".toList),
    ("?u".toList, "ABCDEFGHIJKLMNOPQRSTUVWXYZ".toList),
    ("?d".toList, "0123456789".toList),
    ("?s".toList, "!@#$%^&*()-_=+[]{}|;:,.<>?/~`".toList),
    ("?a".toList, "abcdefghijklmnopqrstuvwxyzABCDEFGHIJKLMNOPQRSTUVWXYZ0123456789!@#$%^&*()-_=+[]{}|;:,.<>?/~`".toList),
    ("?b".toList, "01".toList),
    ("?h".toList, "0123456789abcdef".toList),
    ("?H".toList, "0123456789ABCDEF".toList),
    ("?p".toList, " abcdefghijklmnopqrstuvwxyzABCDEFGHIJKLMNOPQRSTUVWXYZ0123456789!@#$%^&*()-_=+[]{}|;:,.<>?/~`".toList) ]

/-- Keys of `MaskParser.MASK_PLACEHOLDERS` (used by `validate_mask`); note it
additionally registers the key `?c`, which `CHARACTER_SETS` does not have. -/
def parserPlaceholderKeys : List Word :=
  [ "?l".toList, "?u".toList, "?d".toList, "?s".toList, "?a".toList,
    "?b".toList, "?h".toList, "?H".toList, "?p".toList, "?c".toList ]

/-- The `type` tag of a parsed mask component dict. -/
inductive CompType where
  | placeholder
  | literal
deriving DecidableEq, Repr

/-- One component dict produced by `MaskParser.parse_mask`: its `type`,
`character_set` and `size` entries. -/
structure PyComponent where
  ctype : CompType
  charSet : Word
  size : Nat
deriving DecidableEq, Repr

/-- The component loop of `MaskParser.parse_mask` (parser.py lines 61-85).
The guard is translated exactly as written in the source: the character
`mask[i+1]` on its own — a one-character string — is looked up among the
keys of `CHARACTER_SETS`. -/
def parseComponents : Word → List PyComponent
  | [] => []
  | [c] => [⟨CompType.literal, [c], 1⟩]
  | c1 :: c2 :: rest =>
    if c1 = '?' ∧ (lookupW [c2] parserCharacterSets).isSome then
      ⟨CompType.placeholder, (lookupW [c2] parserCharacterSets).getD [],
        ((lookupW [c2] parserCharacterSets).getD []).length⟩ :: parseComponents rest
    else
      ⟨CompType.literal, [c1], 1⟩ :: parseComponents (c2 :: rest)

/-- `MaskParser._calculate_combinations`: the product of the `size` entries,
computed over Python's arbitrary-precision integers (here `Nat`). -/
def calculateCombinations (components : List PyComponent) : Nat :=
  components.foldl (fun total component => total * component.size) 1

/-- The result dict of `MaskParser.parse_mask`. -/
structure ParsedMask where
  components : List PyComponent
  length : Nat
  totalCombinations : Nat
deriving DecidableEq, Repr

/-- `MaskParser.parse_mask`: raises (here: returns `.error`) only on an
empty mask; otherwise builds the component list and the combination
count. -/
def parseMaskPy (mask : Word) : Except String ParsedMask :=
  if mask = [] then .error "Mask cannot be empty"
  else
    let comps := parseComponents mask
    .ok ⟨comps, comps.length, calculateCombinations comps⟩

/-- The placeholder-scanning loop of `MaskParser.validate_mask`
(parser.py lines 133-148), reduced to the `is_valid` flag it computes:
a `?` at the end of the mask is an incomplete placeholder (the loop
breaks), and a two-character sequence starting with `?` that is not a key
of `MASK_PLACEHOLDERS` marks the mask invalid (the loop continues). -/
def validateScan : Word → Bool
  | [] => true
  | c :: rest =>
    if c = '?' then
      match rest with
      | [] => false
      | c2 :: rest2 => decide (['?', c2] ∈ parserPlaceholderKeys) && validateScan rest2
    else validateScan rest

/-- The `is_valid` field of `MaskParser.validate_mask`: false for the empty
mask, otherwise the result of the placeholder scan (the subsequent
`parse_mask` call cannot raise on a non-empty mask, so it never flips
the flag). -/
def validateMaskIsValid (mask : Word) : Bool :=
  if mask = [] then false else validateScan mask

/-! ## Brute-force attack (src/core/attacks/brute_force.py) -/

/-- `BruteForceAttack.CHARACTER_SETS`: eight placeholder alphabets (this
table, unlike the parser's, has no `?p` entry). -/
def bfCharacterSets : List (Word × Word) :=
  [ ("?l".toList, "abcdefghijklmnopqrstuvwxyz".toList),
    ("?u".toList, "ABCDEFGHIJKLMNOPQRSTUVWXYZ".toList),
    ("?d".toList, "0123456789".toList),
    ("?s".toList, "!@#$%^&*()-_=+[]{}|;:,.<>?/~`".toList),
    ("?a".toList, "abcdefghijklmnopqrstuvwxyzABCDEFGHIJKLMNOPQRSTUVWXYZ0123456789!@#$%^&*()-_=+[]{}|;:,.<>?/~`".toList),
    ("?b".toList, "01".toList),
    ("?h".toList, "0123456789abcdef".toList),
    ("?H".toList, "0123456789ABCDEF".toList) ]

/-- `BruteForceAttack._extract_length_from_mask`: counts components with the
same single-character lookup guard as the parser. -/
def extractLengthFromMask : Word → Nat
  | [] => 0
  | [_] => 1
  | c1 :: c2 :: rest =>
    if c1 = '?' ∧ (lookupW [c2] bfCharacterSets).isSome then
      1 + extractLengthFromMask rest
    else
      1 + extractLengthFromMask (c2 :: rest)

/-- The scanning loop of `BruteForceAttack._expand_mask` (lines 75-85):
builds the per-position list of character sets, with the guard translated
exactly as written (`mask[i+1]`, a one-character string, looked up among
the two-character keys). -/
def expandMaskLoop : Word → List Word
  | [] => []
  | [c] => [[c]]
  | c1 :: c2 :: rest =>
    if c1 = '?' ∧ (lookupW [c2] bfCharacterSets).isSome then
      (lookupW [c2] bfCharacterSets).getD [] :: expandMaskLoop rest
    else
      [c1] :: expandMaskLoop (c2 :: rest)

/-- `BruteForceAttack._expand_mask`: if the whole mask is itself a key of
`CHARACTER_SETS` the character set is returned directly (a plain string,
the `Sum.inl` case); otherwise the per-position list is built
(`Sum.inr`). -/
def expandMaskPy (mask : Word) : Sum Word (List Word) :=
  match lookupW mask bfCharacterSets with
  | some cs => .inl cs
  | none => .inr (expandMaskLoop mask)

/-- `BruteForceAttack._calculate_total_combinations`: for a simple (string)
character set, `len(charset) ** min_length`; for a per-position list, the
product of the set sizes. -/
def calcTotalCombinations (characterSet : Sum Word (List Word)) (minLength : Nat) : Nat :=
  match characterSet with
  | .inl cs => cs.length ^ minLength
  | .inr css => css.foldl (fun total cs => total * cs.length) 1

/-- The fields of a constructed `BruteForceAttack`. -/
structure BruteForceAttack where
  mask : Word
  minLength : Nat
  maxLength : Nat
  characterSet : Sum Word (List Word)
  totalCombinations : Nat
deriving Repr

/-- Python's `x or y` for an optional integer argument: `None` and `0` are
falsy and fall through to the default. -/
def pyOrElse (given : Option Nat) (fallback : Nat) : Nat :=
  match given with
  | none => fallback
  | some v => if v = 0 then fallback else v

/-- `BruteForceAttack.__init__` (lines 30-37): length bounds default to the
component count extracted from the mask via `min_length or ...`. -/
def BruteForceAttack.init (mask : Word) (minLength maxLength : Option Nat) :
    BruteForceAttack :=
  let minL := pyOrElse minLength (extractLengthFromMask mask)
  let maxL := pyOrElse maxLength (extractLengthFromMask mask)
  let cs := expandMaskPy mask
  ⟨mask, minL, maxL, cs, calcTotalCombinations cs minL⟩

/-- `itertools.product(charset, repeat=n)` joined to strings: all length-`n`
words over `cs`, the leftmost position varying slowest. -/
def productRepeat (cs : Word) : Nat → List Word
  | 0 => [[]]
  | n + 1 => cs.flatMap (fun c => (productRepeat cs n).map (fun w => c :: w))

/-- `itertools.product(*char_sets)` joined to strings: the Cartesian product
of a list of character sets, the leftmost position varying slowest. -/
def productLists : List Word → List Word
  | [] => [[]]
  | cs :: rest => cs.flatMap (fun c => (productLists rest).map (fun w => c :: w))

/-- `BruteForceAttack.generate_candidates` (lines 103-118): the simple
(string) character set enumerates every length from `min_length` to
`max_length`; a per-position list is enumerated as one Cartesian
product. -/
def BruteForceAttack.generateCandidates (a : BruteForceAttack) : List Word :=
  match a.characterSet with
  | .inl cs =>
    (List.range (a.maxLength + 1 - a.minLength)).flatMap
      (fun k => productRepeat cs (a.minLength + k))
  | .inr css => productLists css

/-! ## Dictionary attack (src/core/attacks/dictionary.py) -/

/-- ASCII whitespace recognised by Python's `str.strip()`. -/
def pyIsSpace (c : Char) : Bool :=
  c = ' ' || c = '\t' || c = '\n' || c = '\r' || c = Char.ofNat 11 || c = Char.ofNat 12

/-- Python `str.strip()`: remove leading and trailing whitespace. -/
def pyStrip (s : Word) : Word :=
  ((s.dropWhile pyIsSpace).reverse.dropWhile pyIsSpace).reverse

/-- Python `str.lower()` on ASCII words. -/
def pyLower (s : Word) : Word := s.map Char.toLower

/-- Python `str.upper()` on ASCII words. -/
def pyUpper (s : Word) : Word := s.map Char.toUpper

/-- Python `str.capitalize()`: first character uppercased, the rest
lowercased. -/
def pyCapitalize : Word → Word
  | [] => []
  | c :: rest => Char.toUpper c :: rest.map Char.toLower

/-- `DictionaryAttack._LEET_TABLE` as a character map. -/
def leetChar (c : Char) : Char :=
  if c = 'a' ∨ c = 'A' then '@'
  else if c = 'e' ∨ c = 'E' then '3'
  else if c = 'i' ∨ c = 'I' then '1'
  else if c = 'o' ∨ c = 'O' then '0'
  else if c = 's' ∨ c = 'S' then '$'
  else if c = 't' ∨ c = 'T' then '7'
  else if c = 'l' ∨ c = 'L' then '1'
  else c

/-- `candidate.translate(self._LEET_TABLE)`. -/
def leetWord (s : Word) : Word := s.map leetChar

/-- The fixed numeric suffixes of `_apply_mutations`. -/
def mutationSuffixes : List Word :=
  ["1".toList, "12".toList, "123".toList, "1234".toList,
   "2023".toList, "2024".toList, "2025".toList]

/-- The fixed numeric prefixes of `_apply_mutations`. -/
def mutationPrefixes : List Word := ["1".toList, "12".toList, "123".toList]

/-- The common symbols appended by `_apply_mutations`. -/
def mutationSymbols : List Char := ['!', '@', '#', '$', '%', '&', '*']

/-- `DictionaryAttack._apply_mutations`: case variations, numeric suffixes,
numeric prefixes, the leetspeak substitution (only when it changes the
word), and symbol suffixes, in source order. -/
def applyMutations (candidate : Word) : List Word :=
  [pyLower candidate, pyUpper candidate, pyCapitalize candidate]
    ++ mutationSuffixes.map (fun suffix => candidate ++ suffix)
    ++ mutationPrefixes.map (fun p => p ++ candidate)
    ++ (if leetWord candidate ≠ candidate then [leetWord candidate] else [])
    ++ mutationSymbols.map (fun symbol => candidate ++ [symbol])

/-- The dedup step of `generate_candidates`: yield `c` only if it is not in
the `seen` set, recording it. State is `(seen, yielded so far)`. -/
def pushUnique (st : List Word × List Word) (c : Word) : List Word × List Word :=
  if c ∈ st.1 then st else (c :: st.1, st.2 ++ [c])

/-- The per-line loop body of `DictionaryAttack.generate_candidates`
(lines 51-64): strip the line, skip it if blank, dedup-yield the base
word, then — with rules enabled — dedup-yield each mutation. -/
def dictGo (applyRules : Bool) : List Word → List Word × List Word → List Word × List Word
  | [], st => st
  | line :: rest, st =>
    let candidate := pyStrip line
    if candidate = [] then dictGo applyRules rest st
    else
      let st1 := pushUnique st candidate
      let st2 := if applyRules then (applyMutations candidate).foldl pushUnique st1 else st1
      dictGo applyRules rest st2

/-- `DictionaryAttack.generate_candidates` over the list of lines of the
wordlist file: the stream of yielded candidates. -/
def dictGenerate (applyRules : Bool) (lines : List Word) : List Word :=
  (dictGo applyRules lines ([], [])).2

/-! ## Hybrid attack (src/core/attacks/hybrid.py) -/

/-- The `hybrid_mode` strings accepted by `HybridAttack.generate_candidates`. -/
inductive HybridMode where
  | dictionary_mask
  | mask_dictionary
  | rules_brute
deriving DecidableEq, Repr

/-- The fields of a constructed `HybridAttack` that candidate generation
reads. -/
structure HybridAttack where
  mask : Option Word
  hybridMode : HybridMode
  bruteForce : Option BruteForceAttack

/-- The body of `HybridAttack.__init__` (lines 19-32): store the mask and
mode and build the sub-attacks; a missing mask leaves `brute_force_attack`
as `None`. -/
def mkHybrid (mask : Option Word) (mode : HybridMode) : HybridAttack :=
  ⟨mask, mode, mask.map (fun m => BruteForceAttack.init m none none)⟩

/-- `HybridAttack.__init__` viewed as a fallible constructor: the source
contains no `raise`, so construction always succeeds. -/
def HybridAttack.init (mask : Option Word) (mode : HybridMode) :
    Except String HybridAttack :=
  .ok (mkHybrid mask mode)

/-- `HybridAttack._dictionary_mask_hybrid` (lines 60-71) after the mask
check: for every dictionary word, first every `word + mask_part`, then
every `mask_part + word`. -/
def dictionaryMaskCombine (words maskCombinations : List Word) : List Word :=
  words.flatMap (fun word =>
    maskCombinations.map (fun maskPart => word ++ maskPart)
      ++ maskCombinations.map (fun maskPart => maskPart ++ word))

/-- `HybridAttack._mask_dictionary_hybrid` (lines 87-96) after the mask
check: per word and mask part of length > 1, `word+mask`, `mask+word`,
and for length > 2 the midpoint insertion. -/
def maskDictionaryCombine (words maskCombinations : List Word) : List Word :=
  words.flatMap (fun word =>
    maskCombinations.flatMap (fun maskPart =>
      if maskPart.length > 1 then
        [word ++ maskPart, maskPart ++ word]
          ++ (if maskPart.length > 2 then
                [maskPart.take (maskPart.length / 2) ++ word
                  ++ maskPart.drop (maskPart.length / 2)]
              else [])
      else []))

/-- `HybridAttack.generate_candidates` (lines 34-116) over the wordlist's
lines: the mask-dependent modes raise (here `.error`) when no mask was
given; `rules_brute` runs a fresh rules-enabled dictionary pass and then
the brute-force pass if a mask is present. -/
def HybridAttack.generate (h : HybridAttack) (lines : List Word) :
    Except String (List Word) :=
  match h.hybridMode with
  | .dictionary_mask =>
    match h.bruteForce with
    | none => .error "Mask required for dictionary-mask hybrid mode"
    | some bf =>
      .ok (dictionaryMaskCombine (dictGenerate false lines) bf.generateCandidates)
  | .mask_dictionary =>
    match h.bruteForce with
    | none => .error "Mask required for mask-dictionary hybrid mode"
    | some bf =>
      .ok (maskDictionaryCombine (dictGenerate false lines) bf.generateCandidates)
  | .rules_brute =>
    .ok (dictGenerate true lines
      ++ (match h.bruteForce with
          | some bf => bf.generateCandidates
          | none => []))

/-! ## Worker process (src/core/engine/worker.py) -/

/-- A message on the result queue: `found`, the candidate (for a hit) and
the worker's local attempt counter. -/
structure ResultMsg where
  found : Bool
  password : Option Word
  attempts : Nat
deriving DecidableEq, Repr

/-- `WorkerProcess._REPORT_INTERVAL`. -/
def reportIntervalDefault : Nat := 100000

/-- The attempt loop of `WorkerProcess.run` (worker.py lines 50-89).

Arguments beyond the chunk: `i` counts loop iterations (so `stop i` is the
value the shared cancellation flag shows at the `i`-th check), `attempts`
is the local attempt counter and `sinceReport` the attempts accumulated
since the last progress report.  The result collects the worker's
observable behaviour: the result-queue message, the progress reports put
on the stats queue (in order, including the final flush), and the list of
candidates actually passed to `verify` (in order). -/
def workerLoop (stop : Nat → Bool) (verify : Word → Word → Bool) (target : Word)
    (reportInterval : Nat) :
    List Word → Nat → Nat → Nat → ResultMsg × List Nat × List Word
  | [], _, attempts, sinceReport =>
    (⟨false, none, attempts⟩, if 0 < sinceReport then [sinceReport] else [], [])
  | c :: rest, i, attempts, sinceReport =>
    if stop i then
      (⟨false, none, attempts⟩, if 0 < sinceReport then [sinceReport] else [], [])
    else if verify c target then
      (⟨true, some c, attempts⟩, [], [c])
    else
      if reportInterval ≤ sinceReport + 1 then
        let r := workerLoop stop verify target reportInterval rest (i + 1) (attempts + 1) 0
        (r.1, (sinceReport + 1) :: r.2.1, c :: r.2.2)
      else
        let r := workerLoop stop verify target reportInterval rest (i + 1) (attempts + 1)
          (sinceReport + 1)
        (r.1, r.2.1, c :: r.2.2)

/-- A full worker run over its chunk, starting with zeroed counters and the
default report interval. -/
def workerRun (stop : Nat → Bool) (verify : Word → Word → Bool) (target : Word)
    (chunk : List Word) : ResultMsg × List Nat × List Word :=
  workerLoop stop verify target reportIntervalDefault chunk 0 0 0

/-- Candidate-vs-target check by string equality, a deterministic stand-in
for the hash collaborator's `verify`. -/
def verifyEq (candidate target : Word) : Bool := candidate = target

/-- The success-result arithmetic of `CrackingEngine.crack_hash` (line 125):
the attempts of the winning worker's found message plus the attempt total
already drained from the stats queue. -/
def successAttempts (foundMsgAttempts accumulatedTotal : Nat) : Nat :=
  foundMsgAttempts + accumulatedTotal

/-! ## Work chunker (src/core/engine/cracking_engine.py lines 172-201) -/

/-- The batches pulled from the candidate stream by successive
`itertools.islice` calls: `take chunkSize` each round until the stream is
exhausted (a zero batch size stops immediately, as the first slice is
then empty). -/
def listBatches (chunkSize : Nat) (stream : List Word) : List (List Word) :=
  if h : chunkSize = 0 ∨ stream = [] then []
  else (stream.take chunkSize) :: listBatches chunkSize (stream.drop chunkSize)
termination_by stream.length
decreasing_by
  push_neg at h
  simp only [List.length_drop]
  have : 0 < stream.length := List.length_pos.mpr h.2
  omega

/-- `chunks[worker_idx].extend(batch)`. -/
def bucketsExtend (buckets : List (List Word)) (idx : Nat) (batch : List Word) :
    List (List Word) :=
  buckets.set idx (buckets.getD idx [] ++ batch)

/-- The while-loop of `_create_work_chunks` (lines 192-197): pull one batch,
append it to the current bucket, advance the bucket index round-robin. -/
def chunkLoop (workers chunkSize : Nat) (stream : List Word) (idx : Nat)
    (buckets : List (List Word)) : List (List Word) :=
  if h : chunkSize = 0 ∨ stream = [] then buckets
  else
    chunkLoop workers chunkSize (stream.drop chunkSize) ((idx + 1) % workers)
      (bucketsExtend buckets idx (stream.take chunkSize))
termination_by stream.length
decreasing_by
  push_neg at h
  simp only [List.length_drop]
  have : 0 < stream.length := List.length_pos.mpr h.2
  omega

/-- `CrackingEngine._create_work_chunks`: distribute the stream over
`workers` buckets, drop the empty buckets, and fall back to a single
empty chunk when nothing remains. -/
def createWorkChunks (workers chunkSize : Nat) (stream : List Word) :
    List (List Word) :=
  let distributed := chunkLoop workers chunkSize stream 0 (List.replicate workers [])
  let nonEmpty := distributed.filter (fun b => !b.isEmpty)
  if nonEmpty = [] then [[]] else nonEmpty

/-- Specification-side description of one bucket: the concatenation, in
arrival order, of exactly the batches whose running index `i0 + k` is
congruent to `j` modulo the worker count. -/
def assignJoin (workers : Nat) (batches : List (List Word)) (i0 j : Nat) : List Word :=
  match batches with
  | [] => []
  | b :: rest =>
    (if i0 % workers = j then b else []) ++ assignJoin workers rest (i0 + 1) j

/-! ## Theorems -/

/-- Looking up a one-character string among the parser's placeholder table
keys never succeeds: every key has two characters. -/
theorem lookupW_single_char_none (c : Char) :
    lookupW [c] parserCharacterSets = none := by
  simp [parserCharacterSets, lookupW]

/-- C1: the product of component sizes is computed exactly, but at the
spec's own example the code's value is 1, not 26^4 = 456976: the mask
?l?l?l?l parses into eight literal components, because the placeholder
guard compares the single character mask[i+1] with the two-character
table keys and therefore never matches. -/
theorem parse_mask_example_total_is_one :
    (parseMaskPy "?l?l?l?l".toList).toOption.map ParsedMask.totalCombinations = some 1 ∧
    (parseMaskPy "?l?l?l?l".toList).toOption.map (fun r => r.components.length) = some 8 ∧
    (parseMaskPy "?l?l?l?l".toList).toOption.map
        (fun r => r.components.countP (fun comp => decide (comp.ctype = CompType.literal)))
      = some 8 ∧
    (1 : Nat) ≠ 456976 := by decide

/-- C2 counterexample: parsing the mask ?x does not fail — parse_mask
returns two literal components (the characters ? and x), each of size 1. -/
theorem parse_mask_unknown_placeholder_succeeds :
    parseMaskPy "?x".toList =
      .ok ⟨[⟨CompType.literal, ['?'], 1⟩, ⟨CompType.literal, ['x'], 1⟩], 2, 1⟩ := by
  rfl

/-- C2 amended: for any second character c whose two-character sequence ?c
is not a registered placeholder, parse_mask silently yields the two
literal components ? and c, while validate_mask (not parse_mask) reports
the mask as invalid. -/
theorem parse_mask_unknown_placeholder_two_literals (c : Char)
    (h : ['?', c] ∉ parserPlaceholderKeys) :
    parseComponents ['?', c] =
      [⟨CompType.literal, ['?'], 1⟩, ⟨CompType.literal, [c], 1⟩] ∧
    validateMaskIsValid ['?', c] = false := by
  constructor
  · rw [parseComponents]
    simp [lookupW_single_char_none]
    rfl
  · simp [validateMaskIsValid, validateScan, h]

/-- C2 amended, witness at c = x. -/
theorem parse_mask_unknown_placeholder_two_literals_witness :
    parseComponents ['?', 'x'] =
      [⟨CompType.literal, ['?'], 1⟩, ⟨CompType.literal, ['x'], 1⟩] ∧
    validateMaskIsValid ['?', 'x'] = false :=
  parse_mask_unknown_placeholder_two_literals 'x' (by decide)

/-- C4: evaluating brute-force generation at the spec's example mask ?d?d:
the per-position expansion never recognises the placeholders, so the
declared per-position sets are the four singletons ?, d, ?, d and the
enumerated Cartesian product is the single string ?d?d (not the 100
strings 00..99), with total_combinations = 1 (not 100). -/
theorem brute_force_dd_single_candidate :
    (BruteForceAttack.init "?d?d".toList none none).generateCandidates
      = ["?d?d".toList] ∧
    (BruteForceAttack.init "?d?d".toList none none).totalCombinations = 1 ∧
    (BruteForceAttack.init "?d?d".toList none none).characterSet
      = .inr [['?'], ['d'], ['?'], ['d']] ∧
    (1 : Nat) ≠ 100 := by
  refine ⟨by rfl, by rfl, by rfl, by decide⟩

/-- C5: evaluating hybrid dictionary_mask generation at the spec's example
(dictionary ab, mask ?d?d): per word and materialized mask combination
both W+M and M+W are emitted — 2 × |dict| × |mask_combinations|
candidates — but the mask materializes to the single string ?d?d, so the
run yields exactly 2 candidates, not 200. -/
theorem hybrid_dictionary_mask_example_two_candidates :
    (mkHybrid (some "?d?d".toList) HybridMode.dictionary_mask).generate ["ab".toList]
      = .ok ["ab?d?d".toList, "?d?dab".toList] ∧
    ["ab?d?d".toList, "?d?dab".toList].length
      = 2 * (dictGenerate false ["ab".toList]).length
          * (BruteForceAttack.init "?d?d".toList none none).generateCandidates.length ∧
    (2 : Nat) ≠ 200 := by
  refine ⟨by rfl, by rfl, by decide⟩

/-- C6 counterexample: constructing a hybrid strategy in the mask-dependent
dictionary_mask mode with no mask succeeds — no configuration error is
raised at construction. -/
theorem hybrid_init_without_mask_succeeds :
    HybridAttack.init none HybridMode.dictionary_mask
      = .ok (mkHybrid none HybridMode.dictionary_mask) := by
  rfl

/-- C6 amended: for a mask-dependent hybrid mode with no mask, construction
succeeds, and the configuration error is raised when candidate generation
runs, before any candidate is produced. -/
theorem hybrid_missing_mask_error_at_generation (mode : HybridMode)
    (lines : List Word)
    (h : mode = HybridMode.dictionary_mask ∨ mode = HybridMode.mask_dictionary) :
    HybridAttack.init none mode = .ok (mkHybrid none mode) ∧
    ∃ msg, (mkHybrid none mode).generate lines = .error msg := by
  rcases h with h | h <;> subst h <;> exact ⟨rfl, ⟨_, rfl⟩⟩

/-- C6 amended, witness in dictionary_mask mode over an empty wordlist. -/
theorem hybrid_missing_mask_error_at_generation_witness :
    HybridAttack.init none HybridMode.dictionary_mask
        = .ok (mkHybrid none HybridMode.dictionary_mask) ∧
    ∃ msg, (mkHybrid none HybridMode.dictionary_mask).generate [] = .error msg :=
  hybrid_missing_mask_error_at_generation HybridMode.dictionary_mask [] (Or.inl rfl)

/-- Invariant of the dictionary generator's state: the yielded stream has
no repeats and the seen set holds exactly the yielded values. -/
def DedupInv (st : List Word × List Word) : Prop :=
  st.2.Nodup ∧ ∀ x : Word, x ∈ st.1 ↔ x ∈ st.2

theorem pushUnique_inv {st : List Word × List Word} (c : Word) (h : DedupInv st) :
    DedupInv (pushUnique st c) := by
  unfold pushUnique
  by_cases hc : c ∈ st.1
  · simpa [hc] using h
  · simp only [hc, if_false]
    refine ⟨?_, ?_⟩
    · have hc2 : c ∉ st.2 := fun hm => hc ((h.2 c).mpr hm)
      simp [List.nodup_append, h.1, hc2]
    · intro x
      simp only [List.mem_cons, List.mem_append, List.mem_singleton, h.2 x]
      tauto

theorem pushUnique_seen_mono {st : List Word × List Word} {x : Word} (c : Word)
    (h : x ∈ st.1) : x ∈ (pushUnique st c).1 := by
  unfold pushUnique
  by_cases hc : c ∈ st.1 <;> simp [hc, h]

theorem pushUnique_seen_self (st : List Word × List Word) (c : Word) :
    c ∈ (pushUnique st c).1 := by
  unfold pushUnique
  by_cases hc : c ∈ st.1 <;> simp [hc]

theorem foldl_pushUnique_inv {st : List Word × List Word} (ms : List Word)
    (h : DedupInv st) : DedupInv (ms.foldl pushUnique st) := by
  induction ms generalizing st with
  | nil => exact h
  | cons m rest ih => exact ih (pushUnique_inv m h)

theorem foldl_pushUnique_seen_mono {st : List Word × List Word} {x : Word}
    (ms : List Word) (h : x ∈ st.1) : x ∈ (ms.foldl pushUnique st).1 := by
  induction ms generalizing st with
  | nil => exact h
  | cons m rest ih => exact ih (pushUnique_seen_mono m h)

theorem dictGo_inv {st : List Word × List Word} (applyRules : Bool)
    (lines : List Word) (h : DedupInv st) : DedupInv (dictGo applyRules lines st) := by
  induction lines generalizing st with
  | nil => exact h
  | cons line rest ih =>
    rw [dictGo]
    by_cases hb : pyStrip line = []
    · simp only [hb, if_pos rfl]
      exact ih h
    · simp only [if_neg hb]
      cases applyRules with
      | false => exact ih (pushUnique_inv _ h)
      | true => exact ih (foldl_pushUnique_inv _ (pushUnique_inv _ h))

theorem dictGo_seen_mono {st : List Word × List Word} {x : Word}
    (applyRules : Bool) (lines : List Word) (h : x ∈ st.1) :
    x ∈ (dictGo applyRules lines st).1 := by
  induction lines generalizing st with
  | nil => exact h
  | cons line rest ih =>
    rw [dictGo]
    by_cases hb : pyStrip line = []
    · simp only [hb, if_pos rfl]
      exact ih h
    · simp only [if_neg hb]
      cases applyRules with
      | false => exact ih (pushUnique_seen_mono _ h)
      | true => exact ih (foldl_pushUnique_seen_mono _ (pushUnique_seen_mono _ h))

theorem dictGo_complete {st : List Word × List Word} (applyRules : Bool)
    (lines : List Word) (line : Word) (hmem : line ∈ lines)
    (hnb : pyStrip line ≠ []) : pyStrip line ∈ (dictGo applyRules lines st).1 := by
  induction lines generalizing st with
  | nil => cases hmem
  | cons head rest ih =>
    rw [dictGo]
    rcases List.mem_cons.mp hmem with heq | hrest
    · subst heq
      simp only [if_neg hnb]
      cases applyRules with
      | false => exact dictGo_seen_mono _ _ (pushUnique_seen_self st _)
      | true =>
        exact dictGo_seen_mono _ _
          (foldl_pushUnique_seen_mono _ (pushUnique_seen_self st _))
    · by_cases hb : pyStrip head = []
      · simp only [hb, if_pos rfl]
        exact ih hrest
      · simp only [if_neg hb]
        cases applyRules <;> exact ih hrest

/-- C3: one run of dictionary generation with mutation rules enabled never
yields the same string twice, and the (stripped) base word of every
non-blank wordlist line appears somewhere in the yielded stream. -/
theorem dictionary_rules_no_repeat_and_complete (lines : List Word) :
    (dictGenerate true lines).Nodup ∧
    ∀ line ∈ lines, pyStrip line ≠ [] → pyStrip line ∈ dictGenerate true lines := by
  have hinv : DedupInv (dictGo true lines ([], [])) :=
    dictGo_inv true lines ⟨List.nodup_nil, by simp⟩
  refine ⟨hinv.1, fun line hmem hnb => ?_⟩
  exact (hinv.2 _).mp (dictGo_complete true lines line hmem hnb)

/-- C3 witness: a one-line wordlist. -/
theorem dictionary_rules_no_repeat_and_complete_witness :
    (dictGenerate true ["hi".toList]).Nodup ∧
    pyStrip "hi".toList ∈ dictGenerate true ["hi".toList] :=
  ⟨(dictionary_rules_no_repeat_and_complete ["hi".toList]).1,
   (dictionary_rules_no_repeat_and_complete ["hi".toList]).2 "hi".toList
     (by decide) (by decide)⟩

theorem workerLoop_verified_bound {stop : Nat → Bool} {k : Nat}
    (verify : Word → Word → Bool) (target : Word) (reportInterval : Nat)
    (hmono : ∀ i j, i ≤ j → stop i = true → stop j = true)
    (hk : stop k = true) :
    ∀ (chunk : List Word) (i attempts sinceReport : Nat),
      (workerLoop stop verify target reportInterval chunk i attempts
        sinceReport).2.2.length ≤ k - i := by
  intro chunk
  induction chunk with
  | nil => intro i attempts sinceReport; simp [workerLoop]
  | cons c rest ih =>
    intro i attempts sinceReport
    rw [workerLoop]
    by_cases hstop : stop i = true
    · simp [hstop]
    · have hik : i < k := by
        by_contra hge
        exact hstop (hmono k i (by omega) hk)
      simp only [hstop, if_false, Bool.false_eq_true]
      by_cases hv : verify c target = true
      · simp [hv]
        omega
      · simp only [hv, if_false, Bool.false_eq_true]
        by_cases hr : reportInterval ≤ sinceReport + 1
        · simp only [if_pos hr, List.length_cons]
          have := ih (i + 1) (attempts + 1) 0
          omega
        · simp only [if_neg hr, List.length_cons]
          have := ih (i + 1) (attempts + 1) (sinceReport + 1)
          omega

/-- C9: if the shared cancellation flag behaves monotonically (once set, it
stays set) and the check at loop iteration k observes it set, then the
worker performs at most k verification calls over its whole chunk — it
never begins a new verification at or after the check that saw the flag. -/
theorem worker_stops_after_cancellation (stop : Nat → Bool)
    (verify : Word → Word → Bool) (target : Word) (chunk : List Word) (k : Nat)
    (hmono : ∀ i j, i ≤ j → stop i = true → stop j = true)
    (hk : stop k = true) :
    (workerRun stop verify target chunk).2.2.length ≤ k := by
  have := workerLoop_verified_bound verify target reportIntervalDefault hmono hk
    chunk 0 0 0
  simpa [workerRun] using this

/-- C9 witness: a flag that becomes set at the third check stops a
four-candidate chunk after at most two verifications. -/
theorem worker_stops_after_cancellation_witness :
    (workerRun (fun i => decide (2 ≤ i)) verifyEq ['z']
      [['a'], ['a'], ['a'], ['a']]).2.2.length ≤ 2 :=
  worker_stops_after_cancellation (fun i => decide (2 ≤ i)) verifyEq ['z']
    [['a'], ['a'], ['a'], ['a']] 2
    (fun i j hij hi => by
      simp only [decide_eq_true_eq] at hi ⊢
      omega)
    (by decide)

theorem workerLoop_replicate_low {verify : Word → Word → Bool} {target a : Word}
    {reportInterval : Nat} (hv : verify a target = false) :
    ∀ (n i attempts sinceReport : Nat) (rest : List Word),
      sinceReport + n < reportInterval →
      workerLoop (fun _ => false) verify target reportInterval
          (List.replicate n a ++ rest) i attempts sinceReport =
        ((workerLoop (fun _ => false) verify target reportInterval rest (i + n)
            (attempts + n) (sinceReport + n)).1,
         (workerLoop (fun _ => false) verify target reportInterval rest (i + n)
            (attempts + n) (sinceReport + n)).2.1,
         List.replicate n a ++
           (workerLoop (fun _ => false) verify target reportInterval rest (i + n)
              (attempts + n) (sinceReport + n)).2.2) := by
  intro n
  induction n with
  | zero => intro i attempts sinceReport rest hlt; simp
  | succ m ih =>
    intro i attempts sinceReport rest hlt
    rw [List.replicate_succ, List.cons_append, workerLoop]
    simp only [hv, if_false, Bool.false_eq_true]
    have hnr : ¬ reportInterval ≤ sinceReport + 1 := by omega
    simp only [if_neg hnr]
    rw [ih (i + 1) (attempts + 1) (sinceReport + 1) rest (by omega)]
    have h1 : i + 1 + m = i + (m + 1) := by omega
    have h2 : attempts + 1 + m = attempts + (m + 1) := by omega
    have h3 : sinceReport + 1 + m = sinceReport + (m + 1) := by omega
    rw [h1, h2, h3]
    rfl

theorem workerLoop_replicate_boundary {verify : Word → Word → Bool}
    {target a : Word} {reportInterval : Nat} (hv : verify a target = false) :
    ∀ (n i attempts sinceReport : Nat) (rest : List Word),
      0 < n → sinceReport + n = reportInterval →
      workerLoop (fun _ => false) verify target reportInterval
          (List.replicate n a ++ rest) i attempts sinceReport =
        ((workerLoop (fun _ => false) verify target reportInterval rest (i + n)
            (attempts + n) 0).1,
         reportInterval ::
           (workerLoop (fun _ => false) verify target reportInterval rest (i + n)
              (attempts + n) 0).2.1,
         List.replicate n a ++
           (workerLoop (fun _ => false) verify target reportInterval rest (i + n)
              (attempts + n) 0).2.2) := by
  intro n
  cases n with
  | zero => intro i attempts sinceReport rest h0; omega
  | succ m =>
    intro i attempts sinceReport rest _ heq
    have hchunk : List.replicate (m + 1) a ++ rest
        = List.replicate m a ++ (a :: rest) := by
      rw [List.replicate_succ' , List.append_assoc]
      rfl
    rw [hchunk, workerLoop_replicate_low hv m i attempts sinceReport (a :: rest)
      (by omega)]
    rw [workerLoop]
    simp only [hv, if_false, Bool.false_eq_true]
    have hr : reportInterval ≤ sinceReport + m + 1 := by omega
    simp only [if_pos hr]
    have hout : sinceReport + m + 1 = reportInterval := by omega
    rw [hout]
    have h1 : i + m + 1 = i + (m + 1) := by omega
    have h2 : attempts + m + 1 = attempts + (m + 1) := by omega
    rw [h1, h2]
    simp only [Prod.mk.injEq, true_and]
    rw [List.replicate_succ' , List.append_assoc]
    rfl

theorem workerRun_replicate_found {a t : Word} (h : a ≠ t) :
    ∀ (n i attempts : Nat),
      workerLoop (fun _ => false) verifyEq t reportIntervalDefault
          (List.replicate n a ++ [t]) i attempts 0 =
        (⟨true, some t, attempts + n⟩,
         List.replicate (n / reportIntervalDefault) reportIntervalDefault,
         List.replicate n a ++ [t]) := by
  intro n
  induction n using Nat.strong_induction_on with
  | _ n ih =>
    intro i attempts
    by_cases hlow : n < reportIntervalDefault
    · rw [workerLoop_replicate_low (by simp [verifyEq, h]) n i attempts 0 [t]
        (by omega)]
      rw [workerLoop]
      have hvt : verifyEq t t = true := by simp [verifyEq]
      simp only [hvt, if_true, Bool.false_eq_true, if_false]
      have hdiv : n / reportIntervalDefault = 0 := Nat.div_eq_of_lt hlow
      rw [hdiv]
      rfl
    · push_neg at hlow
      obtain ⟨m, rfl⟩ : ∃ m, n = reportIntervalDefault + m :=
        ⟨n - reportIntervalDefault, by omega⟩
      rw [List.replicate_add, List.append_assoc]
      rw [workerLoop_replicate_boundary (by simp [verifyEq, h])
        reportIntervalDefault i attempts 0 (List.replicate m a ++ [t])
        (by simp [reportIntervalDefault]) (by omega)]
      rw [ih m (by simp [reportIntervalDefault]) (i + reportIntervalDefault)
        (attempts + reportIntervalDefault)]
      have hdiv : (reportIntervalDefault + m) / reportIntervalDefault
          = m / reportIntervalDefault + 1 := by
        rw [Nat.add_comm, Nat.add_div_right]
        simp [reportIntervalDefault]
      rw [hdiv, List.replicate_succ]
      simp only [Prod.mk.injEq, ResultMsg.mk.injEq, true_and]
      exact ⟨by omega, trivial⟩

/-- C8 amended: consider a run (cancellation never fires) whose winning
worker sees n non-matching candidates and then the match.  Its progress
reports sum to (n / 100000) * 100000 and its found message carries the
full local count n; the engine's success arithmetic adds the found count
to the whole drained stats total, so when those reports were drained it
reports n + (n / 100000) * 100000 — the winner's already-reported attempts
are counted a second time, not excluded. -/
theorem success_attempts_include_winner_reports (n : Nat) (a t : Word)
    (h : a ≠ t) :
    (workerRun (fun _ => false) verifyEq t (List.replicate n a ++ [t])).1
      = ⟨true, some t, n⟩ ∧
    (workerRun (fun _ => false) verifyEq t (List.replicate n a ++ [t])).2.1.sum
      = n / 100000 * 100000 ∧
    successAttempts
        (workerRun (fun _ => false) verifyEq t (List.replicate n a ++ [t])).1.attempts
        (workerRun (fun _ => false) verifyEq t (List.replicate n a ++ [t])).2.1.sum
      = n + n / 100000 * 100000 := by
  have hrun := workerRun_replicate_found h n 0 0
  unfold workerRun
  rw [hrun]
  refine ⟨?_, ?_, ?_⟩ <;>
    simp [successAttempts, List.sum_replicate, smul_eq_mul, reportIntervalDefault]

/-- C8 amended, witness: three misses then the match. -/
theorem success_attempts_include_winner_reports_witness :
    (workerRun (fun _ => false) verifyEq ['b']
        (List.replicate 3 ['a'] ++ [['b']])).1 = ⟨true, some ['b'], 3⟩ ∧
    (workerRun (fun _ => false) verifyEq ['b']
        (List.replicate 3 ['a'] ++ [['b']])).2.1.sum = 3 / 100000 * 100000 ∧
    successAttempts
        (workerRun (fun _ => false) verifyEq ['b']
          (List.replicate 3 ['a'] ++ [['b']])).1.attempts
        (workerRun (fun _ => false) verifyEq ['b']
          (List.replicate 3 ['a'] ++ [['b']])).2.1.sum
      = 3 + 3 / 100000 * 100000 :=
  success_attempts_include_winner_reports 3 ['a'] ['b'] (by decide)

/-- C8 counterexample: a single-worker run whose chunk holds 100000 misses
and then the match.  The worker reports 100000 attempts on the stats
channel and then sends a found message whose attempts field is again its
full local count 100000; with that report drained (the only other
workers' total being 0), the engine computes 100000 + 100000 = 200000
attempts, while the claimed value — winner-local plus other workers
only — is 100000 + 0 = 100000. -/
theorem success_attempts_counterexample :
    successAttempts
        (workerRun (fun _ => false) verifyEq ['b']
          (List.replicate 100000 ['a'] ++ [['b']])).1.attempts
        (workerRun (fun _ => false) verifyEq ['b']
          (List.replicate 100000 ['a'] ++ [['b']])).2.1.sum
      = 200000 ∧
    (workerRun (fun _ => false) verifyEq ['b']
        (List.replicate 100000 ['a'] ++ [['b']])).1.attempts + (0 : Nat)
      = 100000 ∧
    (200000 : Nat) ≠ 100000 := by
  have hrun := @workerRun_replicate_found ['a'] ['b'] (by decide) 100000 0 0
  unfold workerRun
  rw [hrun]
  refine ⟨?_, ?_, by omega⟩ <;>
    simp [successAttempts, List.sum_replicate, smul_eq_mul, reportIntervalDefault]

theorem lookupW_mem {k v : Word} :
    ∀ {tbl : List (Word × Word)}, lookupW k tbl = some v → (k, v) ∈ tbl := by
  intro tbl
  induction tbl with
  | nil => intro h; cases h
  | cons p rest ih =>
    obtain ⟨k', v'⟩ := p
    intro h
    rw [lookupW] at h
    by_cases hk : k = k'
    · simp only [if_pos hk] at h
      cases h
      subst hk
      exact List.mem_cons_self _ _
    · simp only [if_neg hk] at h
      exact List.mem_cons_of_mem _ (ih h)

set_option maxHeartbeats 1000000 in
theorem bfCharacterSets_values_nodup : ∀ p ∈ bfCharacterSets, p.2.Nodup := by
  decide

theorem productRepeat_length (cs : Word) (n : Nat) :
    (productRepeat cs n).length = cs.length ^ n := by
  induction n with
  | zero => rfl
  | succ m ih =>
    rw [productRepeat, List.length_flatMap]
    simp only [Function.comp_def, List.length_map, ih, List.map_const' ,
      List.sum_const_nat]
    rw [pow_succ, Nat.mul_comm]

theorem productRepeat_mem_length {cs w : Word} :
    ∀ {n : Nat}, w ∈ productRepeat cs n → w.length = n := by
  intro n
  induction n generalizing w with
  | zero =>
    intro h
    rw [productRepeat, List.mem_singleton] at h
    subst h
    rfl
  | succ m ih =>
    intro h
    rw [productRepeat, List.mem_flatMap] at h
    obtain ⟨c, _, hw⟩ := h
    rw [List.mem_map] at hw
    obtain ⟨w', hw', rfl⟩ := hw
    simp [ih hw']

theorem productRepeat_nodup {cs : Word} (h : cs.Nodup) (n : Nat) :
    (productRepeat cs n).Nodup := by
  induction n with
  | zero => simp [productRepeat]
  | succ m ih =>
    rw [productRepeat, List.nodup_flatMap]
    constructor
    · intro c _
      exact ih.map (fun x y hxy => by simpa using hxy)
    · refine h.imp ?_
      intro c d hcd w hwc hwd
      rw [List.mem_map] at hwc hwd
      obtain ⟨w1, _, rfl⟩ := hwc
      obtain ⟨w2, _, heq⟩ := hwd
      exact hcd (List.cons.injEq .. ▸ heq).1.symm

theorem list_sum_map_range (g : Nat → Nat) (n : Nat) :
    ((List.range n).map g).sum = ∑ k ∈ Finset.range n, g k := by
  induction n with
  | zero => simp
  | succ m ih =>
    rw [List.range_succ, List.map_append, List.sum_append, Finset.sum_range_succ,
      ih]
    simp

/-- C10: for a mask that is exactly one registered placeholder key (such as
?d) with explicit bounds 0 < min_length < max_length, generation yields
the sum over lengths L in [min_length, max_length] of |charset|^L
candidates with no duplicates, while the reported total_combinations is
|charset| ^ min_length — the planning count covers only the shortest
length. -/
theorem brute_force_single_key_bounds (mask cs : Word) (minL maxL : Nat)
    (hkey : lookupW mask bfCharacterSets = some cs)
    (h0 : 0 < minL) (hlt : minL < maxL) :
    (BruteForceAttack.init mask (some minL) (some maxL)).generateCandidates.length
        = ∑ L ∈ Finset.Icc minL maxL, cs.length ^ L ∧
    (BruteForceAttack.init mask (some minL) (some maxL)).generateCandidates.Nodup ∧
    (BruteForceAttack.init mask (some minL) (some maxL)).totalCombinations
        = cs.length ^ minL := by
  have hcsE : expandMaskPy mask = .inl cs := by rw [expandMaskPy, hkey]
  have hmin : pyOrElse (some minL) (extractLengthFromMask mask) = minL := by
    simp only [pyOrElse]
    rw [if_neg (by omega)]
  have hmax : pyOrElse (some maxL) (extractLengthFromMask mask) = maxL := by
    simp only [pyOrElse]
    rw [if_neg (by omega)]
  have hgen : (BruteForceAttack.init mask (some minL) (some maxL)).generateCandidates
      = (List.range (maxL + 1 - minL)).flatMap (fun k => productRepeat cs (minL + k)) := by
    rw [BruteForceAttack.init]
    simp only [hcsE, hmin, hmax, BruteForceAttack.generateCandidates]
  have hnodupCs : cs.Nodup := bfCharacterSets_values_nodup (mask, cs) (lookupW_mem hkey)
  refine ⟨?_, ?_, ?_⟩
  · rw [hgen, List.length_flatMap]
    have : (List.map (List.length ∘ fun k => productRepeat cs (minL + k))
        (List.range (maxL + 1 - minL))).sum
        = ((List.range (maxL + 1 - minL)).map (fun k => cs.length ^ (minL + k))).sum := by
      congr 1
      refine List.map_congr_left ?_
      intro k _
      simp [Function.comp, productRepeat_length]
    rw [this, list_sum_map_range, ← Nat.Ico_succ_right, Finset.sum_Ico_eq_sum_range]
  · rw [hgen, List.nodup_flatMap]
    constructor
    · intro k _
      exact productRepeat_nodup hnodupCs _
    · refine (List.pairwise_lt_range _).imp ?_
      intro k1 k2 hk12 w hw1 hw2
      have h1 := productRepeat_mem_length hw1
      have h2 := productRepeat_mem_length hw2
      omega
  · rw [BruteForceAttack.init]
    simp only [hcsE, hmin, calcTotalCombinations]

/-- C10 witness: mask ?d with bounds 1 and 2. -/
theorem brute_force_single_key_bounds_witness :
    (BruteForceAttack.init "?d".toList (some 1) (some 2)).generateCandidates.length
        = ∑ L ∈ Finset.Icc 1 2, ("0123456789".toList : Word).length ^ L ∧
    (BruteForceAttack.init "?d".toList (some 1) (some 2)).generateCandidates.Nodup ∧
    (BruteForceAttack.init "?d".toList (some 1) (some 2)).totalCombinations
        = ("0123456789".toList : Word).length ^ 1 :=
  brute_force_single_key_bounds "?d".toList "0123456789".toList 1 2
    (by decide) (by decide) (by decide)

theorem listBatches_nil (c : Nat) : listBatches c [] = [] := by
  rw [listBatches]
  simp

theorem listBatches_cons (c : Nat) (hc : c ≠ 0) (stream : List Word)
    (hs : stream ≠ []) :
    listBatches c stream = stream.take c :: listBatches c (stream.drop c) := by
  rw [listBatches]
  rw [dif_neg (by simp [hc, hs])]

theorem listBatches_join (c : Nat) (hc : 0 < c) (stream : List Word) :
    (listBatches c stream).flatten = stream := by
  by_cases hs : stream = []
  · subst hs
    rw [listBatches_nil]
    rfl
  · rw [listBatches_cons c (by omega) stream hs, List.flatten_cons,
      listBatches_join c hc (stream.drop c)]
    exact List.take_append_drop c stream
termination_by stream.length
decreasing_by
  have : 0 < stream.length := List.length_pos.mpr hs
  simp only [List.length_drop]
  omega

theorem listBatches_mem (c : Nat) (hc : 0 < c) (stream : List Word) :
    ∀ b ∈ listBatches c stream, b ≠ [] ∧ b.length ≤ c := by
  by_cases hs : stream = []
  · subst hs
    rw [listBatches_nil]
    intro b hb
    cases hb
  · rw [listBatches_cons c (by omega) stream hs]
    intro b hb
    rcases List.mem_cons.mp hb with rfl | hb2
    · constructor
      · apply List.ne_nil_of_length_pos
        rw [List.length_take]
        have : 0 < stream.length := List.length_pos.mpr hs
        omega
      · rw [List.length_take]
        omega
    · exact listBatches_mem c hc (stream.drop c) b hb2
termination_by stream.length
decreasing_by
  have : 0 < stream.length := List.length_pos.mpr hs
  simp only [List.length_drop]
  omega

theorem bucketsExtend_length (buckets : List (List Word)) (idx : Nat)
    (batch : List Word) :
    (bucketsExtend buckets idx batch).length = buckets.length := by
  simp [bucketsExtend]

theorem bucketsExtend_getD (buckets : List (List Word)) (idx : Nat)
    (batch : List Word) (hidx : idx < buckets.length) (j : Nat) :
    (bucketsExtend buckets idx batch).getD j []
      = buckets.getD j [] ++ (if idx = j then batch else []) := by
  rw [bucketsExtend, List.getD_eq_getElem?_getD, List.getElem?_set]
  by_cases h1 : idx = j
  · subst h1
    simp [hidx, List.getD_eq_getElem?_getD]
  · simp [h1, List.getD_eq_getElem?_getD]

theorem chunkLoop_length (W c : Nat) (stream : List Word) (idx : Nat)
    (buckets : List (List Word)) :
    (chunkLoop W c stream idx buckets).length = buckets.length := by
  rw [chunkLoop]
  by_cases h : c = 0 ∨ stream = []
  · rw [dif_pos h]
  · rw [dif_neg h]
    rw [chunkLoop_length W c (stream.drop c) ((idx + 1) % W)
      (bucketsExtend buckets idx (stream.take c))]
    exact bucketsExtend_length buckets idx (stream.take c)
termination_by stream.length
decreasing_by
  push_neg at h
  have : 0 < stream.length := List.length_pos.mpr h.2
  simp only [List.length_drop]
  omega

theorem assignJoin_congr (W : Nat) (batches : List (List Word)) (j : Nat) :
    ∀ i0 i0' : Nat, i0 % W = i0' % W →
      assignJoin W batches i0 j = assignJoin W batches i0' j := by
  induction batches with
  | nil => intro i0 i0' _; rfl
  | cons b rest ih =>
    intro i0 i0' h
    have hnext : (i0 + 1) % W = (i0' + 1) % W := by
      rw [← Nat.mod_add_mod, h, Nat.mod_add_mod]
    simp only [assignJoin]
    rw [h, ih (i0 + 1) (i0' + 1) hnext]

theorem chunkLoop_getD (W c : Nat) (hW : 0 < W) (hc : 0 < c)
    (stream : List Word) (idx : Nat) (hidx : idx < W)
    (buckets : List (List Word)) (hlen : buckets.length = W) (j : Nat) :
    (chunkLoop W c stream idx buckets).getD j []
      = buckets.getD j [] ++ assignJoin W (listBatches c stream) idx j := by
  by_cases hs : stream = []
  · subst hs
    rw [chunkLoop, dif_pos (Or.inr rfl), listBatches_nil]
    simp [assignJoin]
  · rw [chunkLoop, dif_neg (by simp [hs]; omega)]
    rw [chunkLoop_getD W c hW hc (stream.drop c) ((idx + 1) % W)
      (Nat.mod_lt _ hW) (bucketsExtend buckets idx (stream.take c))
      (by rw [bucketsExtend_length, hlen]) j]
    rw [bucketsExtend_getD buckets idx (stream.take c) (by omega) j]
    rw [listBatches_cons c (by omega) stream hs]
    simp only [assignJoin]
    rw [Nat.mod_eq_of_lt hidx]
    rw [assignJoin_congr W (listBatches c (stream.drop c)) j ((idx + 1) % W)
      (idx + 1) (Nat.mod_mod_of_dvd _ dvd_rfl)]
    rw [List.append_assoc]
termination_by stream.length
decreasing_by
  have : 0 < stream.length := List.length_pos.mpr hs
  simp only [List.length_drop]
  omega

theorem getD_of_getElem? {α : Type} (l : List α) (d : α) (i : Nat)
    (h : i < l.length) : l[i]? = some (l.getD i d) := by
  rw [List.getD_eq_getElem?_getD, List.getElem?_eq_getElem h]
  rfl

theorem chunkLoop_eq_map (W c : Nat) (hW : 0 < W) (hc : 0 < c)
    (stream : List Word) :
    chunkLoop W c stream 0 (List.replicate W []) =
      (List.range W).map (fun j => assignJoin W (listBatches c stream) 0 j) := by
  apply List.ext_getElem?
  intro i
  have hlenL : (chunkLoop W c stream 0 (List.replicate W [])).length = W := by
    rw [chunkLoop_length, List.length_replicate]
  have hlenR : ((List.range W).map
      (fun j => assignJoin W (listBatches c stream) 0 j)).length = W := by
    rw [List.length_map, List.length_range]
  by_cases hi : i < W
  · rw [getD_of_getElem? (chunkLoop W c stream 0 (List.replicate W [])) [] i
      (by rw [hlenL]; exact hi)]
    rw [chunkLoop_getD W c hW hc stream 0 hW (List.replicate W [])
      (by simp) i]
    have hrep : (List.replicate W ([] : List Word)).getD i [] = [] := by
      rw [List.getD_eq_getElem?_getD, List.getElem?_replicate]
      simp [hi]
    rw [hrep, List.nil_append]
    rw [List.getElem?_map, List.getElem?_range hi]
    rfl
  · rw [List.getElem?_eq_none (by omega), List.getElem?_eq_none (by omega)]

/-- C7: with a positive worker count W and batch size, the chunker pulls the
candidate stream in successive batches (each non-empty and at most the
batch size, jointly re-assembling the stream), sends the i-th batch to
bucket i mod W in arrival order, drops the buckets that end up empty, and
returns exactly one empty chunk when the whole stream is empty. -/
theorem create_work_chunks_spec (W c : Nat) (stream : List Word)
    (hW : 0 < W) (hc : 0 < c) :
    (stream = [] → createWorkChunks W c stream = [[]]) ∧
    (stream ≠ [] → createWorkChunks W c stream =
      ((List.range W).map (fun j => assignJoin W (listBatches c stream) 0 j)).filter
        (fun b => !b.isEmpty)) ∧
    (listBatches c stream).flatten = stream ∧
    (∀ b ∈ listBatches c stream, b ≠ [] ∧ b.length ≤ c) := by
  refine ⟨?_, ?_, listBatches_join c hc stream, listBatches_mem c hc stream⟩
  · intro hs
    subst hs
    rw [createWorkChunks]
    rw [chunkLoop, dif_pos (Or.inr rfl)]
    have hfil : (List.replicate W ([] : List Word)).filter
        (fun b => !b.isEmpty) = [] := by
      apply List.filter_eq_nil_iff.mpr
      intro a ha
      rw [List.eq_of_mem_replicate ha]
      decide
    simp only [hfil]
    rfl
  · intro hs
    rw [createWorkChunks, chunkLoop_eq_map W c hW hc stream]
    have hb0 : assignJoin W (listBatches c stream) 0 0 ≠ [] := by
      rw [listBatches_cons c (by omega) stream hs]
      simp only [assignJoin]
      rw [Nat.zero_mod, if_pos rfl]
      have htake : stream.take c ≠ [] := by
        apply List.ne_nil_of_length_pos
        rw [List.length_take]
        have : 0 < stream.length := List.length_pos.mpr hs
        omega
      simp [htake]
    have hmem : assignJoin W (listBatches c stream) 0 0 ∈
        ((List.range W).map (fun j => assignJoin W (listBatches c stream) 0 j)).filter
          (fun b => !b.isEmpty) := by
      apply List.mem_filter.mpr
      refine ⟨List.mem_map.mpr ⟨0, List.mem_range.mpr hW, rfl⟩, ?_⟩
      simp [hb0]
    simp only [if_neg (List.ne_nil_of_mem hmem)]

/-- C7 witness: two workers, batch size two, over an empty and a
three-candidate stream. -/
theorem create_work_chunks_spec_witness :
    createWorkChunks 2 2 [] = [[]] ∧
    createWorkChunks 2 2 [['a'], ['b'], ['c']] =
      ((List.range 2).map
        (fun j => assignJoin 2 (listBatches 2 [['a'], ['b'], ['c']]) 0 j)).filter
          (fun b => !b.isEmpty) :=
  ⟨(create_work_chunks_spec 2 2 [] (by decide) (by decide)).1 rfl,
   (create_work_chunks_spec 2 2 [['a'], ['b'], ['c']] (by decide) (by decide)).2.1
     (by decide)⟩
